import Mathlib

/-!
Verification of the caching subsystem of the chiario/parse-server cloud code.

Shallow embedding conventions:
* JS `Map`/Yallist state is modelled by explicit lists; `this.map`'s key set is
  `mapKeys` and the doubly-linked recency list is `list` (head = most recent).
  Node references held by the map are modelled as lookups by key, which is
  sound because the key lists are duplicate-free (proved as an invariant).
* JS `null`/`undefined` is modelled by `Option.none`; a cache whose stored
  values may themselves be `null` has value type `Option α`.
* Persistent Parse tables are modelled as lists of records; `query.first()` is
  `List.find?`, `save` on a fresh object appends a row with a fresh `rowId`.
* `async` functions with no interleaving (sequential, non-racing calls) are
  modelled as pure state-passing functions.
-/

namespace ParseServer

/-! ### LRUCache (src/cloud/util/LRUCache.js) -/

/-- An entry of the LRU cache: `function Entry(key, value)`. -/
structure Entry (K V : Type) where
  key : K
  value : V
deriving DecidableEq, Repr

/-- `function LRUCache(maxSize)`: `this.maxSize`, `this.map` (its key set is
`mapKeys`), `this.list` (the Yallist; head = most recently used). -/
structure LRUCache (K V : Type) where
  maxSize : Nat
  mapKeys : List K
  list : List (Entry K V)
deriving DecidableEq, Repr

variable {K V : Type} [DecidableEq K]

/-- `LRUCache.prototype.set`: remove the old node if the key is present, push
the new entry at the head, record the key in the map, and if the map got larger
than `maxSize` pop the tail entry and delete its key from the map.  The second
component is a ghost output: the key of the evicted entry, if any. -/
def LRUCache.set (c : LRUCache K V) (k : K) (v : V) :
    LRUCache K V × Option K :=
  let list1 := if k ∈ c.mapKeys then
      c.list.eraseP (fun e => decide (e.key = k)) else c.list
  let list2 := Entry.mk k v :: list1
  let keys2 := if k ∈ c.mapKeys then c.mapKeys else k :: c.mapKeys
  if keys2.length > c.maxSize then
    match list2.getLast? with
    | some e =>
        ({ maxSize := c.maxSize, mapKeys := keys2.erase e.key,
           list := list2.dropLast }, some e.key)
    | none => -- unreachable: `list2` is a cons
        ({ maxSize := c.maxSize, mapKeys := keys2, list := list2 }, none)
  else
    ({ maxSize := c.maxSize, mapKeys := keys2, list := list2 }, none)

/-- `LRUCache.prototype.get`: `null` (here `none`) if the key is absent from
the map; otherwise move the node to the head of the list and return its value.
The node reference `this.map.get(key)` is modelled by a key lookup, sound
because the recency list never holds two nodes with the same key. -/
def LRUCache.get (c : LRUCache K V) (k : K) : Option V × LRUCache K V :=
  if k ∈ c.mapKeys then
    match c.list.find? (fun e => decide (e.key = k)) with
    | some e =>
        (some e.value,
         { maxSize := c.maxSize, mapKeys := c.mapKeys,
           list := e :: c.list.eraseP (fun x => decide (x.key = k)) })
    | none => (none, c) -- unreachable when the map/list invariant holds
  else (none, c)

/-- Pure observer: the value `get` would return (without the recency move). -/
def LRUCache.lookup (c : LRUCache K V) (k : K) : Option V :=
  if k ∈ c.mapKeys then
    (c.list.find? (fun e => decide (e.key = k))).map Entry.value
  else none

/-- A freshly constructed cache: `new LRUCache(maxSize)`. -/
def LRUCache.empty (K V : Type) (maxSize : Nat) : LRUCache K V :=
  { maxSize := maxSize, mapKeys := [], list := [] }

/-! ### Operation sequences and recency stamps (for the LRU specification)

To state "the entry evicted on overflow is the one least recently touched by a
`get` or `set`", we run an operation sequence on a fresh cache while recording,
for every key, the index of the last operation that touched it (a `set`, or a
`get` that hit).  `stamps` is that last-touch table and `time` the index of the
next operation. -/

/-- One cache operation of a client sequence. -/
inductive CacheOp (K V : Type) where
  | set (k : K) (v : V)
  | get (k : K)
deriving DecidableEq, Repr

/-- A cache together with the ghost last-touch bookkeeping. -/
structure RunState (K V : Type) where
  cache : LRUCache K V
  stamps : List (K × Nat)
  time : Nat
deriving Repr

/-- Record that key `k` was touched at time `t`. -/
def setStamp (st : List (K × Nat)) (k : K) (t : Nat) : List (K × Nat) :=
  (k, t) :: st.eraseP (fun p => decide (p.1 = k))

/-- The last time `k` was touched (`0` if never). -/
def stampOf (st : List (K × Nat)) (k : K) : Nat :=
  ((st.find? (fun p => decide (p.1 = k))).map Prod.snd).getD 0

/-- Execute one operation: `set` always touches its key; `get` touches its key
exactly when it hits (the key is present in the map). -/
def runStep (r : RunState K V) (op : CacheOp K V) : RunState K V :=
  match op with
  | .set k v =>
      { cache := (r.cache.set k v).1,
        stamps := setStamp r.stamps k r.time,
        time := r.time + 1 }
  | .get k =>
      { cache := (r.cache.get k).2,
        stamps := if k ∈ r.cache.mapKeys then setStamp r.stamps k r.time
                  else r.stamps,
        time := r.time + 1 }

/-- The state reached from a fresh cache of capacity `n` after `ops`. -/
def runOps (n : Nat) (ops : List (CacheOp K V)) : RunState K V :=
  ops.foldl runStep
    { cache := LRUCache.empty K V n, stamps := [], time := 0 }

/-- The combined invariant maintained while running a sequence of operations:
the map's key set and the recency list stay in sync and duplicate-free, the
map never exceeds the capacity, and the recency list is strictly ordered by
decreasing last-touch stamp (head = most recently touched). -/
structure RunInv (r : RunState K V) : Prop where
  nodupMap : r.cache.mapKeys.Nodup
  nodupList : (r.cache.list.map Entry.key).Nodup
  memIff : ∀ k, k ∈ r.cache.mapKeys ↔ k ∈ r.cache.list.map Entry.key
  cap : r.cache.mapKeys.length ≤ r.cache.maxSize
  stampsLt : ∀ p ∈ r.stamps, p.2 < r.time
  stamped : ∀ k ∈ r.cache.mapKeys, k ∈ r.stamps.map Prod.fst
  sorted : (r.cache.list.map Entry.key).Pairwise
      (fun a b => stampOf r.stamps b < stampOf r.stamps a)

/-! ### Cache registry (src/cloud/util/cache.js)

The source file assigns `module.exports` twice (two revisions are present in
the file); in JS the later assignment wins.  Neither object contains a
`playlistCache` member, although `cachePlaylist` and `getCachedPlaylist` in
utilFunctions.js dereference `Cache.playlistCache`. -/

/-- The earlier `module.exports` object of cache.js (overwritten). -/
def cacheExportsEarlier : List (String × Nat) :=
  [("searchCache", 2000), ("partyCache", 100)]

/-- The effective `module.exports` of cache.js: name and capacity of each
exported LRUCache. -/
def cacheExports : List (String × Nat) :=
  [("searchCache", 1500), ("songCache", 30000), ("partyCache", 100)]

/-- Member access `Cache.<name>` on the registry: `none` models the JS value
`undefined` (on which `.get`/`.set` throw a TypeError). -/
def registryMember (n : String) : Option Nat :=
  (cacheExports.find? (fun p => decide (p.1 = n))).map Prod.snd

/-! ### generateJoinCode (src/cloud/util/utilFunctions.js)

`rand i` is the string produced by attempt `i`
(`Math.random().toString(36).substr(2, 4)`), and `taken c = true` says the
Party table holds a party with joinCode `c` (`partyQuery.first()` found a
row).  The store does not change during the loop (sequential model). -/

/-- The retry loop of `generateJoinCode`: `i` is the next attempt index,
`remaining` the number of attempts left. -/
def joinCodeLoop (rand : Nat → String) (taken : String → Bool) :
    Nat → Nat → Except String String
  | _, 0 => Except.error "Could not generate a unique join code!"
  | i, r + 1 =>
      if taken (rand i) then joinCodeLoop rand taken (i + 1) r
      else Except.ok (rand i)

/-- `generateJoinCode`: at most 100 attempts, then `throw`. -/
def generateJoinCode (rand : Nat → String) (taken : String → Bool) :
    Except String String :=
  joinCodeLoop rand taken 0 100

/-! ### Join code length (C8)

`Math.random().toString(36).substr(2, 4)` need not produce 4 characters:
`toString(36)` prints the shortest exact base-36 expansion, so doubles whose
fractional base-36 expansion has fewer than 6 digits yield short strings.
We model exactly representable random values `num / 36 ^ k` (e.g.
`0.5 = 18 / 36`, printed "0.i", and `0`, printed "0"). -/

/-- The base-36 digit characters `0-9a-z` used by `Number.toString(36)`. -/
def base36DigitChar (d : Nat) : Char :=
  if d < 10 then Char.ofNat (48 + d) else Char.ofNat (87 + d)

/-- Fractional base-36 digits of `num / 36 ^ k` (most significant first). -/
def frac36DigitList : Nat → Nat → List Nat
  | _, 0 => []
  | num, k + 1 => (num / 36 ^ k) :: frac36DigitList (num % 36 ^ k) k

/-- `toString` prints no trailing zero digits. -/
def stripTrailingZeros (l : List Nat) : List Nat :=
  (l.reverse.dropWhile (fun d => decide (d = 0))).reverse

/-- `r.toString(36)` for an exactly representable `r = num / 36 ^ k` in
`[0, 1)`: `"0"` for zero, otherwise `"0."` followed by the shortest exact
fractional expansion. -/
def jsNumToString36 (num k : Nat) : String :=
  if num = 0 then "0"
  else "0." ++ String.mk
    ((stripTrailingZeros (frac36DigitList num k)).map base36DigitChar)

/-- `String.prototype.substr(start, len)` (clamping at the end). -/
def jsSubstr (s : String) (start len : Nat) : String :=
  String.mk ((s.toList.drop start).take len)

/-- One candidate join code, `Math.random().toString(36).substr(2, 4)`, for
the random value `num / 36 ^ k`. -/
def joinCodeCandidate (num k : Nat) : String :=
  jsSubstr (jsNumToString36 num k) 2 4

/-! ### Search-cache consolidation (src/cloud/util/spotifyAPI.js, jobs file)

A persisted `SearchCache` record has a `query` and a `songs` attribute (a
list of song pointers, written by `formatSearchResult` and by
`consolidateCache`).  No code ever writes a `song` attribute on a
`SearchCache`, yet `consolidateCache` reads `cachedResult.get("song")`; the
`song` field below models that attribute (always `none` = `undefined` on
records produced by the real writers).  List elements are `Option Song`
because `consolidateCache` pushes the possibly-`undefined` value of that
read into the merged list. -/

/-- A song row (identity plus its Spotify natural key). -/
structure Song where
  rowId : Nat
  spotifyId : String
deriving DecidableEq, Repr

/-- A persisted `SearchCache` record. -/
structure SearchCacheRec where
  rowId : Nat
  query : String
  songs : Option (List (Option Song))
  song : Option (Option Song)
deriving DecidableEq, Repr

/-- The guard `results.length == 1 && results[0].get("songs")`: a single
record whose `songs` attribute is set (any array — even empty — is truthy,
`undefined` is falsy). -/
def consolidateNoop (results : List SearchCacheRec) : Bool :=
  results.length == 1 &&
    (match results.head? with
     | some r => r.songs.isSome
     | none => false)

/-- `consolidateCache(query)`: fetch all records for the query; if exactly
one exists and its `songs` attribute is set, do nothing; otherwise push each
record's `"song"` attribute (sic — not `"songs"`) into `formattedResult`,
destroy all fetched records, and save one new record with
`songs := formattedResult`.  `freshId` is the object id given to the saved
record. -/
def consolidateCache (store : List SearchCacheRec) (q : String)
    (freshId : Nat) : List SearchCacheRec :=
  let results := store.filter (fun r => decide (r.query = q))
  if consolidateNoop results then store
  else
    let formattedResult : List (Option Song) :=
      results.map (fun r => r.song.getD none)
    (store.filter (fun r => !decide (r.query = q))) ++
      [{ rowId := freshId, query := q, songs := some formattedResult,
         song := none }]

/-- A record as created by `formatSearchResult`: `query` and `songs` set,
`song` never set. -/
def mkSearchCacheRec (rowId : Nat) (q : String) (songs : List Song) :
    SearchCacheRec :=
  { rowId := rowId, query := q, songs := some (songs.map some),
    song := none }

/-! ### buildSearchCache / buildCache (spotifyAPI.js jobs)

`buildCache(cachedQueries, query, token)` loops
`for (; query.length > 0; query = query.slice(0, -1))`, skipping queries
already in the per-run visited set, otherwise adding them, searching
Spotify and persisting the formatted result.  Queries are JS strings,
modelled as `List Char`; `query.slice(0, -1)` is `List.dropLast`.  The ghost
second output collects, in order, the queries actually searched. -/

/-- One seed expansion of `buildCache`: returns the grown visited set and
the list of queries searched (and persisted) during this expansion. -/
def buildCache (visited : List (List Char)) (q : List Char) :
    List (List Char) × List (List Char) :=
  if hq : q = [] then (visited, [])
  else if q ∈ visited then buildCache visited q.dropLast
  else
    let out := buildCache (q :: visited) q.dropLast
    (out.1, q :: out.2)
termination_by q.length
decreasing_by
  all_goals
    simp only [List.length_dropLast]
    have : 0 < q.length := List.length_pos.mpr hq
    omega

/-- One iteration of the job loop `for (const query of queries) await
buildCache(cachedQueries, query, token)`: thread the visited set, collect
the searched queries. -/
def buildFoldStep (acc : List (List Char) × List (List Char))
    (seed : List Char) : List (List Char) × List (List Char) :=
  ((buildCache acc.1 seed).1, acc.2 ++ (buildCache acc.1 seed).2)

/-- The `buildSearchCache` job: iterate `buildCache` over the distinct seed
queries with one shared `cachedQueries` set, starting empty.  The result is
the concatenated list of searched queries of the whole run. -/
def buildSearchCacheRun (seeds : List (List Char)) : List (List Char) :=
  (seeds.foldl buildFoldStep ([], [])).2

/-! ### Cache well-formedness (for states not reached from a fresh cache) -/

/-- A well-formed cache state: map keys and list keys are duplicate-free and
in sync, and the map respects the capacity.  Every state reachable by
`set`/`get` from a fresh cache satisfies this (`RunInv`). -/
def LRUCache.WF (c : LRUCache K V) : Prop :=
  c.mapKeys.Nodup ∧
  (c.list.map Entry.key).Nodup ∧
  (∀ k ∈ c.mapKeys, k ∈ c.list.map Entry.key) ∧
  (∀ k ∈ c.list.map Entry.key, k ∈ c.mapKeys) ∧
  c.mapKeys.length ≤ c.maxSize

/-! ### saveSong (src/cloud/util/utilFunctions.js) -/

/-- A candidate song passed to `saveSong` before it is persisted: its natural
key plus its remaining attributes (artist/title/album/artUrl), abstracted as
`payload` — two candidates may differ in payload yet share a `spotifyId`. -/
structure SongCandidate where
  spotifyId : String
  payload : Nat
deriving DecidableEq, Repr

/-- A persisted song candidate: `song.save()` assigns the object id. -/
def SongCandidate.persist (c : SongCandidate) (rowId : Nat) : Song :=
  { rowId := rowId, spotifyId := c.spotifyId }

/-- The process state seen by `saveSong`: the song LRU cache (its values are
JS values — `none` models a stored `null`/`undefined`), the persisted Song
table, and the next fresh object id. -/
structure SongState where
  songCache : LRUCache String (Option Song)
  songs : List Song
  nextRowId : Nat

/-- `saveSong(song)`: return a truthy cached song for the candidate's
`spotifyId`; otherwise take the first persisted row with that `spotifyId`,
else persist the candidate; populate the cache with the result and return
it. -/
def saveSong (st : SongState) (c : SongCandidate) : Song × SongState :=
  let spotifyId := c.spotifyId
  let g := st.songCache.get spotifyId
  match g.1.getD none with
  | some cached => (cached, { st with songCache := g.2 })
  | none =>
      match st.songs.find? (fun s => decide (s.spotifyId = spotifyId)) with
      | some s =>
          (s, { st with songCache := (g.2.set spotifyId (some s)).1 })
      | none =>
          let s := c.persist st.nextRowId
          (s, { songCache := (g.2.set spotifyId (some s)).1,
                songs := st.songs ++ [s],
                nextRowId := st.nextRowId + 1 })

/-! ### Playlist publication (src/cloud/util/utilFunctions.js) -/

/-- A persisted `PlaylistEntry` row (fields used by the playlist logic). -/
structure PlaylistEntry where
  rowId : Nat
  partyId : String
  songSpotifyId : String
  score : Int
deriving DecidableEq, Repr

/-- A persisted Party row (fields used here). -/
structure Party where
  id : String
  cachedPlaylist : Option String
  playlistLastUpdatedAt : Option Nat
deriving DecidableEq, Repr

/-- Modelled from the spec: the registry's playlist cache, "keyed by party
id, value is a `PartyPlaylistCache`" (spec §4.2) — `cache.js` does not
export `Cache.playlistCache` although `cachePlaylist` and
`getCachedPlaylist` dereference it (see the C2 theorem).  The state also
holds the persisted `PlaylistEntry` and `Party` tables.  A
`PartyPlaylistCache` is a JS `Map` from `song.spotifyId` to the entry,
modelled as an association list in insertion order. -/
structure PlaylistState where
  playlistCache : LRUCache String (Option (List (String × PlaylistEntry)))
  entries : List PlaylistEntry
  parties : List Party

/-- `Map.prototype.set`: update in place if the key exists (keeping its
original insertion position), else append. -/
def jsMapSet (m : List (String × PlaylistEntry)) (k : String)
    (v : PlaylistEntry) : List (String × PlaylistEntry) :=
  match m with
  | [] => [(k, v)]
  | (k', v') :: rest =>
      if k' = k then (k, v) :: rest else (k', v') :: jsMapSet rest k v

/-- The store's `descending("score")` sort (stable on equal scores). -/
def dbSortByScoreDesc (l : List PlaylistEntry) : List PlaylistEntry :=
  l.mergeSort (fun a b => decide (b.score ≤ a.score))

/-- `getPlaylistForParty`: all `PlaylistEntry` rows of the party, ordered by
descending score. -/
def getPlaylistForParty (st : PlaylistState) (partyId : String) :
    List PlaylistEntry :=
  dbSortByScoreDesc (st.entries.filter (fun e => decide (e.partyId = partyId)))

/-- `cachePlaylist`: rebuild the key→entry mapping from the persisted rows
and insert it into the playlist cache. -/
def cachePlaylist (st : PlaylistState) (party : Party) :
    List (String × PlaylistEntry) × PlaylistState :=
  let playlist := (getPlaylistForParty st party.id).foldl
    (fun m e => jsMapSet m e.songSpotifyId e) []
  (playlist,
   { st with playlistCache :=
       (st.playlistCache.set party.id (some playlist)).1 })

/-- `getCachedPlaylist`: a falsy cached value (absent or stored null) falls
back to `cachePlaylist`. -/
def getCachedPlaylist (st : PlaylistState) (party : Party) :
    List (String × PlaylistEntry) × PlaylistState :=
  let g := st.playlistCache.get party.id
  match g.1.getD none with
  | some m => (m, { st with playlistCache := g.2 })
  | none => cachePlaylist { st with playlistCache := g.2 } party

/-- The JS array sort `(a, b) => b.get("score") - a.get("score")` in
`getPlaylistAsString` (stable, descending by score). -/
def jsSortByScoreDesc (l : List PlaylistEntry) : List PlaylistEntry :=
  l.mergeSort (fun a b => decide (b.score ≤ a.score))

/-- `JSON.stringify` of one playlist entry (attribute rendering). -/
def entryJson (e : PlaylistEntry) : String :=
  "\x7b\"song\":\"" ++ e.songSpotifyId ++ "\",\"score\":"
    ++ toString e.score ++ "\x7d"

/-- `getPlaylistAsString`: `JSON.stringify([...playlist.values()].sort(...))`
— serialize the mapping's values sorted by descending score. -/
def getPlaylistAsString (playlist : List (String × PlaylistEntry)) :
    String :=
  "[" ++ String.intercalate ","
    ((jsSortByScoreDesc (playlist.map Prod.snd)).map entryJson) ++ "]"

/-- `party.save()`: replace the row with the same object id (append if the
party was never saved). -/
def saveParty (parties : List Party) (p : Party) : List Party :=
  if parties.any (fun q => decide (q.id = p.id)) then
    parties.map (fun q => if q.id = p.id then p else q)
  else parties ++ [p]

/-- `indicatePlaylistUpdated(party)`: read the cached mapping, stamp
`playlistLastUpdatedAt` with the current time, write the serialized
descending-score snapshot to `cachedPlaylist`, and persist the party. -/
def indicatePlaylistUpdated (st : PlaylistState) (party : Party)
    (now : Nat) : List (String × PlaylistEntry) × PlaylistState :=
  let g := getCachedPlaylist st party
  let party2 : Party :=
    { id := party.id,
      cachedPlaylist := some (getPlaylistAsString g.1),
      playlistLastUpdatedAt := some now }
  (g.1, { g.2 with parties := saveParty g.2.parties party2 })

/-- Concrete playlist data for the C5 witness. -/
def wEntry1 : PlaylistEntry :=
  { rowId := 1, partyId := "p1", songSpotifyId := "s1", score := 1 }

def wEntry2 : PlaylistEntry :=
  { rowId := 2, partyId := "p1", songSpotifyId := "s2", score := 5 }

def wMap : List (String × PlaylistEntry) :=
  [("s1", wEntry1), ("s2", wEntry2)]

def wParty : Party :=
  { id := "p1", cachedPlaylist := none, playlistLastUpdatedAt := none }

def wPlaylistState : PlaylistState :=
  { playlistCache :=
      { maxSize := 5, mapKeys := ["p1"],
        list := [{ key := "p1", value := some wMap }] },
    entries := [wEntry1, wEntry2],
    parties := [wParty] }

/-- Concrete state for the C10 witness: the song cache stores a null for
"x" while the table has a row for it. -/
def wSongState : SongState :=
  { songCache :=
      { maxSize := 1, mapKeys := ["x"],
        list := [{ key := "x", value := none }] },
    songs := [{ rowId := 0, spotifyId := "x" }],
    nextRowId := 1 }

def wPlaylistStateMiss : PlaylistState :=
  { playlistCache := { maxSize := 1, mapKeys := [], list := [] },
    entries := [wEntry1],
    parties := [wParty] }

/-! ### Theorems -/
/-! #### Basic bridging lemmas -/

theorem LRUCache.get_fst (c : LRUCache K V) (k : K) :
    (c.get k).1 = c.lookup k := by
  unfold LRUCache.get LRUCache.lookup
  by_cases h : k ∈ c.mapKeys
  · simp only [h, if_pos]
    cases hf : c.list.find? (fun e => decide (e.key = k)) <;> simp
  · simp [h]

theorem eraseP_key_eq_erase (L : List K) (k : K) :
    L.eraseP (fun x => decide (x = k)) = L.erase k := by
  induction L with
  | nil => rfl
  | cons a t ih =>
      by_cases h : a = k
      · subst h; simp [List.eraseP_cons, List.erase_cons]
      · simp [List.eraseP_cons, List.erase_cons, h, ih]

theorem map_key_eraseP (l : List (Entry K V)) (k : K) :
    (l.eraseP (fun e => decide (e.key = k))).map Entry.key
      = ((l.map Entry.key).erase k) := by
  rw [← eraseP_key_eq_erase]
  induction l with
  | nil => rfl
  | cons a t ih =>
      by_cases h : a.key = k
      · simp [List.eraseP_cons, h]
      · simp [List.eraseP_cons, h, ih]

/-! #### Helper lemmas about stamps -/

theorem find?_eraseP_of_ne {α : Type} (p q : α → Bool) (l : List α)
    (h : ∀ x, p x = true → q x = false) :
    (l.eraseP q).find? p = l.find? p := by
  induction l with
  | nil => rfl
  | cons a t ih =>
      by_cases hq : q a = true
      · have hp : p a = false := by
          cases hpa : p a
          · rfl
          · have := h a hpa; rw [this] at hq; cases hq
        simp [List.eraseP_cons, hq, List.find?_cons, hp]
      · rw [Bool.not_eq_true] at hq
        cases hp : p a
        · simp [List.eraseP_cons, hq, List.find?_cons, hp, ih]
        · simp [List.eraseP_cons, hq, List.find?_cons, hp]

theorem stampOf_setStamp_self (st : List (K × Nat)) (k : K) (t : Nat) :
    stampOf (setStamp st k t) k = t := by
  simp [stampOf, setStamp, List.find?_cons]

theorem stampOf_setStamp_ne (st : List (K × Nat)) (k k' : K) (t : Nat)
    (h : k' ≠ k) : stampOf (setStamp st k t) k' = stampOf st k' := by
  unfold stampOf setStamp
  rw [List.find?_cons]
  simp only [show (fun p : K × Nat => decide (p.1 = k')) (k, t)
      = decide (k = k') from rfl]
  rw [show (decide (k = k')) = false from
    decide_eq_false (fun h2 => h h2.symm)]
  rw [find?_eraseP_of_ne]
  intro x hx
  simp only [decide_eq_true_eq] at hx
  simp [hx, h]

theorem mem_setStamp_fst (st : List (K × Nat)) (k k' : K) (t : Nat)
    (h : k' ∈ st.map Prod.fst) :
    k' ∈ (setStamp st k t).map Prod.fst := by
  by_cases hk : k' = k
  · subst hk; simp [setStamp]
  · simp only [setStamp, List.map_cons, List.mem_cons]
    right
    obtain ⟨p, hp, hpk⟩ := List.mem_map.mp h
    refine List.mem_map.mpr ⟨p, ?_, hpk⟩
    refine (List.mem_eraseP_of_neg ?_).mpr hp
    simp [hpk, hk]

theorem setStamp_lt (st : List (K × Nat)) (k : K) (t bound : Nat)
    (hst : ∀ p ∈ st, p.2 < bound) (ht : t < bound) :
    ∀ p ∈ setStamp st k t, p.2 < bound := by
  intro p hp
  rcases List.mem_cons.mp hp with h | h
  · subst h; exact ht
  · exact hst p (List.mem_of_mem_eraseP h)

theorem stampOf_lt_of_mem (st : List (K × Nat)) (bound : Nat)
    (hst : ∀ p ∈ st, p.2 < bound) (x : K) (hx : x ∈ st.map Prod.fst) :
    stampOf st x < bound := by
  obtain ⟨p, hp, hpx⟩ := List.mem_map.mp hx
  have hsome : (st.find? (fun q => decide (q.1 = x))).isSome := by
    rw [List.find?_isSome]
    exact ⟨p, hp, by simp [hpx]⟩
  cases hf : st.find? (fun q => decide (q.1 = x)) with
  | none => rw [hf] at hsome; cases hsome
  | some q =>
      have hq := List.mem_of_find?_eq_some hf
      simp [stampOf, hf]
      exact hst q hq

theorem pairwise_cons_touch (st : List (K × Nat)) (t : Nat) (k : K)
    (M : List K)
    (hs : M.Pairwise (fun a b => stampOf st b < stampOf st a))
    (hne : ∀ x ∈ M, x ≠ k)
    (hlt : ∀ x ∈ M, stampOf st x < t) :
    (k :: M).Pairwise
      (fun a b => stampOf (setStamp st k t) b < stampOf (setStamp st k t) a)
    := by
  rw [List.pairwise_cons]
  constructor
  · intro b hb
    rw [stampOf_setStamp_self, stampOf_setStamp_ne st k b t (hne b hb)]
    exact hlt b hb
  · refine hs.imp_of_mem ?_
    intro a b ha hb hab
    rw [stampOf_setStamp_ne st k a t (hne a ha),
        stampOf_setStamp_ne st k b t (hne b hb)]
    exact hab

theorem getLast?_cons_of_ne_nil {α : Type} (a : α) (l : List α)
    (h : l ≠ []) : (a :: l).getLast? = l.getLast? := by
  cases l with
  | nil => exact absurd rfl h
  | cons b t => exact List.getLast?_cons_cons

theorem mem_dropLast_iff {α : Type} (L : List α) (h : L ≠ []) (hn : L.Nodup)
    (x : α) : x ∈ L.dropLast ↔ x ∈ L ∧ x ≠ L.getLast h := by
  have E : L.dropLast ++ [L.getLast h] = L := List.dropLast_append_getLast h
  have hn2 : (L.dropLast ++ [L.getLast h]).Nodup := by rw [E]; exact hn
  rw [List.nodup_append] at hn2
  obtain ⟨-, -, hdisj⟩ := hn2
  constructor
  · intro hx
    refine ⟨?_, ?_⟩
    · rw [← E]; exact List.mem_append_left _ hx
    · intro hxg
      exact hdisj hx (by rw [hxg]; simp)
  · rintro ⟨hx, hxg⟩
    rw [← E] at hx
    rcases List.mem_append.mp hx with h1 | h1
    · exact h1
    · simp at h1; exact absurd h1 hxg

/-- Shape of `set` when the insertion does not overflow the capacity. -/
theorem LRUCache.set_no_overflow (c : LRUCache K V) (k : K) (v : V)
    (h : (if k ∈ c.mapKeys then c.mapKeys else k :: c.mapKeys).length
        ≤ c.maxSize) :
    c.set k v =
      ({ maxSize := c.maxSize,
         mapKeys := if k ∈ c.mapKeys then c.mapKeys else k :: c.mapKeys,
         list := Entry.mk k v ::
           (if k ∈ c.mapKeys then
             c.list.eraseP (fun e => decide (e.key = k)) else c.list) },
       none) := by
  simp only [LRUCache.set]
  rw [if_neg (not_lt.mpr h)]

/-- Shape of `set` when the insertion overflows the capacity: the tail entry
of the new recency list is popped and its key deleted from the map. -/
theorem LRUCache.set_overflow (c : LRUCache K V) (k : K) (v : V)
    (h : c.maxSize
        < (if k ∈ c.mapKeys then c.mapKeys else k :: c.mapKeys).length) :
    c.set k v =
      ({ maxSize := c.maxSize,
         mapKeys := (if k ∈ c.mapKeys then c.mapKeys
            else k :: c.mapKeys).erase
           ((Entry.mk k v :: (if k ∈ c.mapKeys then
               c.list.eraseP (fun e => decide (e.key = k))
             else c.list)).getLast (List.cons_ne_nil _ _)).key,
         list := (Entry.mk k v :: (if k ∈ c.mapKeys then
               c.list.eraseP (fun e => decide (e.key = k))
             else c.list)).dropLast },
       some ((Entry.mk k v :: (if k ∈ c.mapKeys then
               c.list.eraseP (fun e => decide (e.key = k))
             else c.list)).getLast (List.cons_ne_nil _ _)).key) := by
  simp only [LRUCache.set]
  rw [if_pos h, List.getLast?_eq_getLast _ (List.cons_ne_nil _ _)]

theorem runInv_set (r : RunState K V) (hinv : RunInv r) (k : K) (v : V) :
    RunInv (runStep r (CacheOp.set k v)) := by
  obtain ⟨hnm, hnl, hmi, hcap, hlt, hstp, hsort⟩ := hinv
  have hlt2 : ∀ p ∈ r.stamps, p.2 < r.time + 1 :=
    fun p hp => Nat.lt_succ_of_lt (hlt p hp)
  have hstamps' : ∀ p ∈ setStamp r.stamps k r.time, p.2 < r.time + 1 :=
    setStamp_lt _ _ _ _ hlt2 (Nat.lt_succ_self _)
  have hltL : ∀ x ∈ r.cache.list.map Entry.key,
      stampOf r.stamps x < r.time :=
    fun x hx => stampOf_lt_of_mem _ _ hlt x (hstp x ((hmi x).mpr hx))
  have hkeys1 : (if k ∈ r.cache.mapKeys then
        r.cache.list.eraseP (fun e => decide (e.key = k))
      else r.cache.list).map Entry.key
        = (r.cache.list.map Entry.key).erase k := by
    by_cases hk : k ∈ r.cache.mapKeys
    · rw [if_pos hk, map_key_eraseP]
    · rw [if_neg hk,
        List.erase_of_not_mem (fun hkL => hk ((hmi k).mpr hkL))]
  simp only [runStep]
  by_cases hov : (if k ∈ r.cache.mapKeys then r.cache.mapKeys
      else k :: r.cache.mapKeys).length ≤ r.cache.maxSize
  · -- no eviction
    rw [LRUCache.set_no_overflow _ _ _ hov]
    refine ⟨?_, ?_, ?_, ?_, hstamps', ?_, ?_⟩
    · by_cases hk : k ∈ r.cache.mapKeys
      · rwa [if_pos hk]
      · rw [if_neg hk]; exact List.nodup_cons.mpr ⟨hk, hnm⟩
    · simp only [List.map_cons, hkeys1]
      refine List.nodup_cons.mpr ⟨?_, hnl.erase k⟩
      intro hmem
      exact ((hnl.mem_erase_iff).mp hmem).1 rfl
    · intro x
      simp only [List.map_cons, hkeys1, List.mem_cons]
      by_cases hxk : x = k
      · rw [hxk]
        by_cases hk : k ∈ r.cache.mapKeys
        · simp [hk]
        · simp [hk]
      · by_cases hk : k ∈ r.cache.mapKeys
        · rw [if_pos hk]
          rw [hnl.mem_erase_iff]
          constructor
          · intro hx; exact Or.inr ⟨hxk, (hmi x).mp hx⟩
          · rintro (h1 | h1)
            · exact absurd h1 hxk
            · exact (hmi x).mpr h1.2
        · rw [if_neg hk, List.mem_cons]
          rw [hnl.mem_erase_iff]
          constructor
          · rintro (h1 | h1)
            · exact absurd h1 hxk
            · exact Or.inr ⟨hxk, (hmi x).mp h1⟩
          · rintro (h1 | h1)
            · exact absurd h1 hxk
            · exact Or.inr ((hmi x).mpr h1.2)
    · exact hov
    · intro x hx
      by_cases hxk : x = k
      · subst hxk; simp [setStamp]
      · refine mem_setStamp_fst _ _ _ _ (hstp x ?_)
        by_cases hk : k ∈ r.cache.mapKeys
        · rwa [if_pos hk] at hx
        · rw [if_neg hk] at hx
          rcases List.mem_cons.mp hx with h1 | h1
          · exact absurd h1 hxk
          · exact h1
    · simp only [List.map_cons, hkeys1]
      refine pairwise_cons_touch _ _ _ _ ?_ ?_ ?_
      · exact hsort.sublist (List.erase_sublist _ _)
      · intro x hx; exact ((hnl.mem_erase_iff).mp hx).1
      · intro x hx
        exact hltL x (List.mem_of_mem_erase hx)
  · -- eviction
    have hov' := not_le.mp hov
    have hk : k ∉ r.cache.mapKeys := by
      intro hk
      rw [if_pos hk] at hov'
      exact absurd hcap (not_le.mpr hov')
    rw [if_neg hk] at hov'
    rw [LRUCache.set_overflow _ _ _ (by rwa [if_neg hk])]
    rw [if_neg hk, if_neg hk]
    have hkL : k ∉ r.cache.list.map Entry.key :=
      fun hkL => hk ((hmi k).mpr hkL)
    by_cases hnil : r.cache.mapKeys = []
    · -- capacity is full at size 0: the just-inserted entry is evicted
      have hLnil : r.cache.list.map Entry.key = [] := by
        rw [List.eq_nil_iff_forall_not_mem]
        intro x hx
        exact (List.eq_nil_iff_forall_not_mem.mp hnil x) ((hmi x).mpr hx)
      have hlist : r.cache.list = [] := List.map_eq_nil_iff.mp hLnil
      rw [hnil, hlist]
      simp only [List.getLast_singleton]
      refine ⟨?_, ?_, ?_, ?_, hstamps', ?_, ?_⟩
      · simp
      · simp
      · intro x; simp
      · simp
      · intro x hx; simp at hx
      · simp
    · -- normal eviction: the tail of the recency list goes
      have hlne : r.cache.list ≠ [] := by
        intro h0
        refine hnil (List.eq_nil_iff_forall_not_mem.mpr fun x hx => ?_)
        have := (hmi x).mp hx
        rw [h0] at this
        cases this
      have hLne : r.cache.list.map Entry.key ≠ [] := by
        simpa using hlne
      have hE : (Entry.mk k v :: r.cache.list).getLast
          (List.cons_ne_nil _ _) = r.cache.list.getLast hlne := by
        have h1 := List.getLast?_eq_getLast
          (Entry.mk k v :: r.cache.list) (List.cons_ne_nil _ _)
        rw [getLast?_cons_of_ne_nil _ _ hlne,
          List.getLast?_eq_getLast _ hlne] at h1
        exact Option.some_injective _ h1.symm
      have hgk : (r.cache.list.getLast hlne).key
          = (r.cache.list.map Entry.key).getLast hLne := by
        have h1 := List.getLast?_map Entry.key r.cache.list
        rw [List.getLast?_eq_getLast _ hlne,
          List.getLast?_eq_getLast _ hLne] at h1
        exact (Option.some_injective _ h1).symm
      set gk := (r.cache.list.map Entry.key).getLast hLne with hgkdef
      have hgkL : gk ∈ r.cache.list.map Entry.key := List.getLast_mem hLne
      have hgkM : gk ∈ r.cache.mapKeys := (hmi gk).mpr hgkL
      have hgknek : gk ≠ k := fun h0 => hkL (h0 ▸ hgkL)
      rw [hE, hgk]
      have herase : (k :: r.cache.mapKeys).erase gk
          = k :: r.cache.mapKeys.erase gk := by
        refine List.erase_cons_tail ?_
        simp only [beq_iff_eq]
        exact fun h0 => hgknek h0.symm
      have hdrop : (Entry.mk k v :: r.cache.list).dropLast
          = Entry.mk k v :: r.cache.list.dropLast :=
        List.dropLast_cons_of_ne_nil hlne
      rw [herase, hdrop]
      have hdropkeys : (Entry.mk k v :: r.cache.list.dropLast).map Entry.key
          = k :: (r.cache.list.map Entry.key).dropLast := by
        simp [List.map_dropLast]
      refine ⟨?_, ?_, ?_, ?_, hstamps', ?_, ?_⟩
      · refine List.nodup_cons.mpr ⟨?_, hnm.erase gk⟩
        intro h0
        exact hk (List.mem_of_mem_erase h0)
      · rw [hdropkeys]
        refine List.nodup_cons.mpr ⟨?_, (List.dropLast_sublist _).nodup hnl⟩
        intro h0
        exact hkL ((List.dropLast_sublist _).subset h0)
      · intro x
        rw [hdropkeys]
        simp only [List.mem_cons]
        by_cases hxk : x = k
        · simp [hxk]
        · constructor
          · rintro (h1 | h1)
            · exact absurd h1 hxk
            · have h2 := (hnm.mem_erase_iff).mp h1
              refine Or.inr ((mem_dropLast_iff _ hLne hnl x).mpr
                ⟨(hmi x).mp h2.2, h2.1⟩)
          · rintro (h1 | h1)
            · exact absurd h1 hxk
            · have h2 := (mem_dropLast_iff _ hLne hnl x).mp h1
              exact Or.inr ((hnm.mem_erase_iff).mpr
                ⟨h2.2, (hmi x).mpr h2.1⟩)
      · have h1 : (r.cache.mapKeys.erase gk).length
            = r.cache.mapKeys.length - 1 := List.length_erase_of_mem hgkM
        have h2 : 1 ≤ r.cache.mapKeys.length :=
          List.length_pos.mpr hnil
        simp only [List.length_cons, h1]
        omega
      · intro x hx
        by_cases hxk : x = k
        · subst hxk; simp [setStamp]
        · rcases List.mem_cons.mp hx with h1 | h1
          · exact absurd h1 hxk
          · exact mem_setStamp_fst _ _ _ _
              (hstp x (List.mem_of_mem_erase h1))
      · rw [hdropkeys]
        refine pairwise_cons_touch _ _ _ _ ?_ ?_ ?_
        · exact hsort.sublist (List.dropLast_sublist _)
        · intro x hx
          exact fun h0 => hkL (h0 ▸ (List.dropLast_sublist _).subset hx)
        · intro x hx
          exact hltL x ((List.dropLast_sublist _).subset hx)

theorem runInv_get (r : RunState K V) (hinv : RunInv r) (k : K) :
    RunInv (runStep r (CacheOp.get k)) := by
  obtain ⟨hnm, hnl, hmi, hcap, hlt, hstp, hsort⟩ := hinv
  have hlt2 : ∀ p ∈ r.stamps, p.2 < r.time + 1 :=
    fun p hp => Nat.lt_succ_of_lt (hlt p hp)
  have hltL : ∀ x ∈ r.cache.list.map Entry.key,
      stampOf r.stamps x < r.time :=
    fun x hx => stampOf_lt_of_mem _ _ hlt x (hstp x ((hmi x).mpr hx))
  simp only [runStep]
  by_cases hk : k ∈ r.cache.mapKeys
  · -- hit: the node moves to the head of the recency list
    have hkL : k ∈ r.cache.list.map Entry.key := (hmi k).mp hk
    have hfind : (r.cache.list.find?
        (fun e => decide (e.key = k))).isSome := by
      rw [List.find?_isSome]
      obtain ⟨e, he, hek⟩ := List.mem_map.mp hkL
      exact ⟨e, he, by simp [hek]⟩
    cases hf : r.cache.list.find? (fun e => decide (e.key = k)) with
    | none => rw [hf] at hfind; cases hfind
    | some e =>
        have hek : e.key = k := by
          have := List.find?_some hf
          simpa using this
        rw [if_pos hk]
        simp only [LRUCache.get, if_pos hk, hf]
        have hkeys : (e :: r.cache.list.eraseP
            (fun x => decide (x.key = k))).map Entry.key
              = k :: (r.cache.list.map Entry.key).erase k := by
          simp [map_key_eraseP, hek]
        refine ⟨hnm, ?_, ?_, hcap,
          setStamp_lt _ _ _ _ hlt2 (Nat.lt_succ_self _), ?_, ?_⟩
        · rw [hkeys]
          refine List.nodup_cons.mpr ⟨?_, hnl.erase k⟩
          intro hmem
          exact ((hnl.mem_erase_iff).mp hmem).1 rfl
        · intro x
          rw [hkeys]
          simp only [List.mem_cons]
          by_cases hxk : x = k
          · simp [hxk, hk]
          · rw [hnl.mem_erase_iff]
            constructor
            · intro hx; exact Or.inr ⟨hxk, (hmi x).mp hx⟩
            · rintro (h1 | h1)
              · exact absurd h1 hxk
              · exact (hmi x).mpr h1.2
        · intro x hx
          by_cases hxk : x = k
          · rw [hxk]; simp [setStamp]
          · exact mem_setStamp_fst _ _ _ _ (hstp x hx)
        · rw [hkeys]
          refine pairwise_cons_touch _ _ _ _ ?_ ?_ ?_
          · exact hsort.sublist (List.erase_sublist _ _)
          · intro x hx; exact ((hnl.mem_erase_iff).mp hx).1
          · intro x hx
            exact hltL x (List.mem_of_mem_erase hx)
  · -- miss: the cache is unchanged
    rw [if_neg hk]
    simp only [LRUCache.get, if_neg hk]
    exact ⟨hnm, hnl, hmi, hcap, hlt2, hstp, hsort⟩

theorem runInv_runStep (r : RunState K V) (op : CacheOp K V)
    (hinv : RunInv r) : RunInv (runStep r op) := by
  cases op with
  | set k v => exact runInv_set r hinv k v
  | get k => exact runInv_get r hinv k

theorem runInv_foldl (ops : List (CacheOp K V)) (r : RunState K V)
    (hinv : RunInv r) : RunInv (ops.foldl runStep r) := by
  induction ops generalizing r with
  | nil => exact hinv
  | cons op rest ih =>
      exact ih (runStep r op) (runInv_runStep r op hinv)

theorem runInv_runOps (n : Nat) (ops : List (CacheOp K V)) :
    RunInv (runOps n ops) := by
  refine runInv_foldl ops _ ?_
  refine ⟨List.nodup_nil, List.nodup_nil, ?_, ?_, ?_, ?_, List.Pairwise.nil⟩
  · intro k; simp [LRUCache.empty]
  · simp [LRUCache.empty]
  · intro p hp; cases hp
  · intro k hk; cases hk

theorem LRUCache.maxSize_set (c : LRUCache K V) (k : K) (v : V) :
    ((c.set k v).1).maxSize = c.maxSize := by
  simp only [LRUCache.set]
  split
  all_goals split
  all_goals first | (split <;> rfl) | rfl

theorem LRUCache.maxSize_get (c : LRUCache K V) (k : K) :
    ((c.get k).2).maxSize = c.maxSize := by
  simp only [LRUCache.get]
  split
  · split <;> rfl
  · rfl

theorem maxSize_runStep (r : RunState K V) (op : CacheOp K V) :
    (runStep r op).cache.maxSize = r.cache.maxSize := by
  cases op with
  | set k v => simp only [runStep]; exact LRUCache.maxSize_set _ _ _
  | get k => simp only [runStep]; exact LRUCache.maxSize_get _ _

theorem maxSize_runOps (n : Nat) (ops : List (CacheOp K V)) :
    (runOps n ops).cache.maxSize = n := by
  suffices h : ∀ (r : RunState K V),
      (ops.foldl runStep r).cache.maxSize = r.cache.maxSize by
    rw [runOps, h]; rfl
  induction ops with
  | nil => intro r; rfl
  | cons op rest ih =>
      intro r
      rw [List.foldl_cons, ih, maxSize_runStep]

/-- Shape of `set` on a key not yet in the map when the insertion overflows
the capacity. -/
theorem LRUCache.set_overflow_fresh (c : LRUCache K V) (k : K) (v : V)
    (hk : k ∉ c.mapKeys) (h : c.maxSize < c.mapKeys.length + 1) :
    c.set k v =
      ({ maxSize := c.maxSize,
         mapKeys := (k :: c.mapKeys).erase
           ((Entry.mk k v :: c.list).getLast (List.cons_ne_nil _ _)).key,
         list := (Entry.mk k v :: c.list).dropLast },
       some ((Entry.mk k v :: c.list).getLast
         (List.cons_ne_nil _ _)).key) := by
  simp only [LRUCache.set, if_neg hk]
  rw [if_pos (by simpa using h),
    List.getLast?_eq_getLast _ (List.cons_ne_nil _ _)]

theorem evicted_is_lru (r : RunState K V) (hinv : RunInv r)
    (hN : 0 < r.cache.maxSize) (k : K) (v : V) (ev : K)
    (hev : (r.cache.set k v).2 = some ev) :
    ev ∈ r.cache.mapKeys ∧
    ∀ k' ∈ r.cache.mapKeys, k' ≠ ev →
      stampOf r.stamps ev < stampOf r.stamps k' := by
  obtain ⟨hnm, hnl, hmi, hcap, hlt, hstp, hsort⟩ := hinv
  by_cases hov : (if k ∈ r.cache.mapKeys then r.cache.mapKeys
      else k :: r.cache.mapKeys).length ≤ r.cache.maxSize
  · rw [LRUCache.set_no_overflow _ _ _ hov] at hev
    cases hev
  · have hov' := not_le.mp hov
    have hk : k ∉ r.cache.mapKeys := by
      intro hk
      rw [if_pos hk] at hov'
      exact absurd hcap (not_le.mpr hov')
    have hlen : r.cache.maxSize < r.cache.mapKeys.length + 1 := by
      rw [if_neg hk] at hov'
      simpa using hov'
    rw [LRUCache.set_overflow_fresh _ _ _ hk hlen] at hev
    have hnil : r.cache.mapKeys ≠ [] := by
      intro h0
      rw [h0] at hlen
      simp at hlen
      omega
    have hlne : r.cache.list ≠ [] := by
      intro h0
      refine hnil (List.eq_nil_iff_forall_not_mem.mpr fun x hx => ?_)
      have := (hmi x).mp hx
      rw [h0] at this
      cases this
    have hLne : r.cache.list.map Entry.key ≠ [] := by simpa using hlne
    have hE : (Entry.mk k v :: r.cache.list).getLast
        (List.cons_ne_nil _ _) = r.cache.list.getLast hlne := by
      have h1 := List.getLast?_eq_getLast
        (Entry.mk k v :: r.cache.list) (List.cons_ne_nil _ _)
      rw [getLast?_cons_of_ne_nil _ _ hlne,
        List.getLast?_eq_getLast _ hlne] at h1
      exact Option.some_injective _ h1.symm
    have hgk : (r.cache.list.getLast hlne).key
        = (r.cache.list.map Entry.key).getLast hLne := by
      have h1 := List.getLast?_map Entry.key r.cache.list
      rw [List.getLast?_eq_getLast _ hlne,
        List.getLast?_eq_getLast _ hLne] at h1
      exact (Option.some_injective _ h1).symm
    rw [hE, hgk] at hev
    have hevk : ev = (r.cache.list.map Entry.key).getLast hLne :=
      (Option.some_injective _ hev).symm
    constructor
    · rw [hevk]
      exact (hmi _).mpr (List.getLast_mem hLne)
    · intro k' hk' hne
      have hk'L : k' ∈ r.cache.list.map Entry.key := (hmi k').mp hk'
      have hk'drop : k' ∈ (r.cache.list.map Entry.key).dropLast := by
        rw [mem_dropLast_iff _ hLne hnl]
        exact ⟨hk'L, by rw [← hevk]; exact hne⟩
      have hdecomp := List.dropLast_append_getLast hLne
      have hsort2 := hsort
      rw [← hdecomp, List.pairwise_append] at hsort2
      obtain ⟨-, -, hmin⟩ := hsort2
      have hlast := hmin k' hk'drop
        ((r.cache.list.map Entry.key).getLast hLne) (by simp)
      rw [hevk]
      exact hlast

/-- **C1**: for every LRUCache constructed with positive capacity `N` and
every finite sequence of `set`/`get` operations, after each operation
completes the cache holds at most `N` entries (`|lookup| ≤ N` and
`|lookup| = |order|`, and every key of the lookup map points to a node
physically present in the order list), and whenever an insertion overflows
the capacity the entry removed is exactly the one least recently touched by
a `get` or `set` in the sequence (strictly smaller last-touch stamp than
every other cached key). -/
theorem lruCache_capacity_and_lru_eviction
    (N : Nat) (hN : 0 < N) (ops : List (CacheOp K V)) (i : Nat) :
    (runOps N (ops.take i)).cache.mapKeys.length ≤ N ∧
    (runOps N (ops.take i)).cache.mapKeys.length
      = (runOps N (ops.take i)).cache.list.length ∧
    (∀ k ∈ (runOps N (ops.take i)).cache.mapKeys,
       ∃ e ∈ (runOps N (ops.take i)).cache.list, e.key = k) ∧
    (∀ (k : K) (v : V) (ev : K),
       ((runOps N (ops.take i)).cache.set k v).2 = some ev →
       ev ∈ (runOps N (ops.take i)).cache.mapKeys ∧
       ∀ k' ∈ (runOps N (ops.take i)).cache.mapKeys, k' ≠ ev →
         stampOf (runOps N (ops.take i)).stamps ev
           < stampOf (runOps N (ops.take i)).stamps k') := by
  have hinv : RunInv (runOps N (ops.take i)) :=
    runInv_runOps N (ops.take i)
  have hms : (runOps N (ops.take i)).cache.maxSize = N :=
    maxSize_runOps N (ops.take i)
  refine ⟨?_, ?_, ?_, ?_⟩
  · exact le_trans hinv.cap (le_of_eq hms)
  · have hperm := (List.perm_ext_iff_of_nodup hinv.nodupMap
      hinv.nodupList).mpr hinv.memIff
    rw [hperm.length_eq, List.length_map]
  · intro k hk
    obtain ⟨e, he, hek⟩ := List.mem_map.mp ((hinv.memIff k).mp hk)
    exact ⟨e, he, hek⟩
  · intro k v ev hev
    exact evicted_is_lru _ hinv (by rw [hms]; exact hN) k v ev hev

/-- Witness for C1 at a concrete run: capacity 2, four operations. -/
theorem lruCache_capacity_and_lru_eviction_witness :
    0 < 2 ∧
    ((runOps 2 ([CacheOp.set 1 10, CacheOp.set 2 20, CacheOp.get 1,
        CacheOp.set 3 30].take 4)).cache.mapKeys.length ≤ 2 ∧
     (runOps 2 ([CacheOp.set 1 10, CacheOp.set 2 20, CacheOp.get 1,
        CacheOp.set 3 30].take 4)).cache.mapKeys.length
       = (runOps 2 ([CacheOp.set 1 10, CacheOp.set 2 20, CacheOp.get 1,
        CacheOp.set 3 30].take 4)).cache.list.length ∧
     (∀ k ∈ (runOps 2 ([CacheOp.set 1 10, CacheOp.set 2 20, CacheOp.get 1,
        CacheOp.set 3 30].take 4)).cache.mapKeys,
        ∃ e ∈ (runOps 2 ([CacheOp.set 1 10, CacheOp.set 2 20, CacheOp.get 1,
          CacheOp.set 3 30].take 4)).cache.list, e.key = k) ∧
     (∀ (k v ev : Nat),
        ((runOps 2 ([CacheOp.set 1 10, CacheOp.set 2 20, CacheOp.get 1,
          CacheOp.set 3 30].take 4)).cache.set k v).2 = some ev →
        ev ∈ (runOps 2 ([CacheOp.set 1 10, CacheOp.set 2 20, CacheOp.get 1,
          CacheOp.set 3 30].take 4)).cache.mapKeys ∧
        ∀ k' ∈ (runOps 2 ([CacheOp.set 1 10, CacheOp.set 2 20,
            CacheOp.get 1, CacheOp.set 3 30].take 4)).cache.mapKeys,
          k' ≠ ev →
          stampOf (runOps 2 ([CacheOp.set 1 10, CacheOp.set 2 20,
              CacheOp.get 1, CacheOp.set 3 30].take 4)).stamps ev
            < stampOf (runOps 2 ([CacheOp.set 1 10, CacheOp.set 2 20,
              CacheOp.get 1, CacheOp.set 3 30].take 4)).stamps k')) :=
  ⟨by decide,
   lruCache_capacity_and_lru_eviction 2 (by decide)
     [CacheOp.set 1 10, CacheOp.set 2 20, CacheOp.get 1, CacheOp.set 3 30]
     4⟩

/-- **C2** (code-bug evidence): the registry exports exactly three caches —
`searchCache` (1500), `songCache` (30000) and `partyCache` (100) — and no
`playlistCache`, so `Cache.playlistCache` is `undefined` and the
`Cache.playlistCache.get/.set` calls of `getCachedPlaylist`/`cachePlaylist`
(utilFunctions.js lines 59 and 309) throw a TypeError instead of reading or
populating a playlist cache. -/
theorem cacheRegistry_has_no_playlistCache :
    registryMember "playlistCache" = none ∧
    registryMember "searchCache" = some 1500 ∧
    registryMember "songCache" = some 30000 ∧
    registryMember "partyCache" = some 100 ∧
    cacheExports.length = 3 ∧
    "playlistCache" ∉ cacheExports.map Prod.fst := by
  refine ⟨rfl, rfl, rfl, rfl, rfl, ?_⟩
  decide

theorem joinCodeLoop_ok (rand : Nat → String) (taken : String → Bool) :
    ∀ (r i j : Nat), i ≤ j → j < i + r → taken (rand j) = false →
    (∀ a, i ≤ a → a < j → taken (rand a) = true) →
    joinCodeLoop rand taken i r = Except.ok (rand j) := by
  intro r
  induction r with
  | zero => intro i j hij hlt _ _; omega
  | succ r ih =>
      intro i j hij hlt hfree htaken
      by_cases hi : i = j
      · subst hi
        simp [joinCodeLoop, hfree]
      · have hi2 : taken (rand i) = true := htaken i le_rfl (by omega)
        simp only [joinCodeLoop, hi2, if_true]
        exact ih (i + 1) j (by omega) (by omega) hfree
          (fun a ha1 ha2 => htaken a (by omega) ha2)

theorem joinCodeLoop_err (rand : Nat → String) (taken : String → Bool) :
    ∀ (r i : Nat), (∀ a, i ≤ a → a < i + r → taken (rand a) = true) →
    joinCodeLoop rand taken i r
      = Except.error "Could not generate a unique join code!" := by
  intro r
  induction r with
  | zero => intro i _; rfl
  | succ r ih =>
      intro i htaken
      have hi : taken (rand i) = true := htaken i le_rfl (by omega)
      simp only [joinCodeLoop, hi, if_true]
      exact ih (i + 1) (fun a ha1 ha2 => htaken a (by omega) (by omega))

/-- **C7**: `generateJoinCode` makes at most 100 attempts: it returns the
first generated code with no existing party (the attempt with the least
index whose code is not taken, every earlier attempt having collided), and
if all 100 attempts collide it throws the fatal
"Could not generate a unique join code!" error instead of looping. -/
theorem generateJoinCode_first_unique (rand : Nat → String)
    (taken : String → Bool) :
    (∀ j, j < 100 → taken (rand j) = false →
       (∀ a, a < j → taken (rand a) = true) →
       generateJoinCode rand taken = Except.ok (rand j) ∧
       taken (rand j) = false) ∧
    ((∀ a, a < 100 → taken (rand a) = true) →
       generateJoinCode rand taken
         = Except.error "Could not generate a unique join code!") := by
  constructor
  · intro j hj hfree htaken
    refine ⟨?_, hfree⟩
    exact joinCodeLoop_ok rand taken 100 0 j (Nat.zero_le _) (by omega)
      hfree (fun a _ ha => htaken a ha)
  · intro htaken
    exact joinCodeLoop_err rand taken 100 0
      (fun a _ ha => htaken a (by omega))

/-- Witness for C7: with candidates "0","1","2",… and only "0" taken, the
second attempt succeeds; with every code taken, the loop throws. -/
theorem generateJoinCode_first_unique_witness :
    (generateJoinCode (fun a => toString a) (fun c => decide (c = "0"))
       = Except.ok "1") ∧
    (generateJoinCode (fun a => toString a) (fun _ => true)
       = Except.error "Could not generate a unique join code!") := by
  constructor
  · have h := (generateJoinCode_first_unique (fun a => toString a)
      (fun c => decide (c = "0"))).1 1 (by decide) (by decide)
      (fun a ha => by
        have ha0 : a = 0 := Nat.lt_one_iff.mp ha
        rw [ha0]
        decide)
    exact h.1
  · exact (generateJoinCode_first_unique (fun a => toString a)
      (fun _ => true)).2 (fun a _ => rfl)

/-- **C8** (code-bug evidence): the claim "every join code returned by
`generateJoinCode` is a string of exactly 4 characters" fails.  When
`Math.random()` returns `0.5` (= 18/36, an exactly representable double),
the candidate is the 1-character string "i", and the loop returns it when
free; when `Math.random()` returns `0`, the candidate is the empty string. -/
theorem generateJoinCode_returns_short_code :
    joinCodeCandidate 18 1 = "i" ∧
    (joinCodeCandidate 18 1).length = 1 ∧
    joinCodeCandidate 0 1 = "" ∧
    generateJoinCode (fun _ => joinCodeCandidate 18 1) (fun _ => false)
      = Except.ok "i" ∧
    ¬ (joinCodeCandidate 18 1).length = 4 := by
  refine ⟨by decide, by decide, by decide, ?_, by decide⟩
  show joinCodeLoop _ _ 0 100 = _
  rw [show joinCodeLoop (fun _ => joinCodeCandidate 18 1)
      (fun _ => false) 0 100 = Except.ok (joinCodeCandidate 18 1) from rfl]
  exact congrArg Except.ok (by decide)

/-- **C3** (code-bug evidence): with two persisted records for query "a"
holding song lists `[s1]` and `[s2]`, `consolidateCache` deletes both rows
but saves a record whose `songs` list is `[undefined, undefined]` — it reads
the nonexistent `"song"` attribute instead of merging the `"songs"` lists
`[s1, s2]`.  Also, a single record whose `songs` attribute is unset is
destroyed and re-created rather than left alone. -/
theorem consolidateCache_loses_song_lists :
    (consolidateCache
        [mkSearchCacheRec 0 "a" [⟨10, "s1"⟩],
         mkSearchCacheRec 1 "a" [⟨11, "s2"⟩]] "a" 2
      = [{ rowId := 2, query := "a", songs := some [none, none],
           song := none }]) ∧
    (∀ r ∈ consolidateCache
        [mkSearchCacheRec 0 "a" [⟨10, "s1"⟩],
         mkSearchCacheRec 1 "a" [⟨11, "s2"⟩]] "a" 2,
       ¬ r.songs = some [some ⟨10, "s1"⟩, some ⟨11, "s2"⟩]) ∧
    (consolidateCache
        [{ rowId := 5, query := "b", songs := none, song := none }] "b" 6
      ≠ [{ rowId := 5, query := "b", songs := none, song := none }]) := by
  refine ⟨by decide, by decide, by decide⟩

/-- The behaviour of `consolidateCache` outside the no-op branch. -/
theorem consolidateCache_of_not_noop (store : List SearchCacheRec)
    (q : String) (fid : Nat)
    (h : consolidateNoop (store.filter (fun r => decide (r.query = q)))
        = false) :
    consolidateCache store q fid
      = (store.filter (fun r => !decide (r.query = q))) ++
        [({ rowId := fid, query := q,
            songs := some ((store.filter
              (fun r => decide (r.query = q))).map
                (fun r => r.song.getD none)),
            song := none } : SearchCacheRec)] := by
  simp [consolidateCache, h]

/-- After removing every record of a query and appending one record for it,
a query-filter finds exactly that record. -/
theorem filter_query_after_consolidate (store : List SearchCacheRec)
    (q : String) (R : SearchCacheRec) (hR : R.query = q) :
    ((store.filter (fun r => !decide (r.query = q))) ++ [R]).filter
        (fun r => decide (r.query = q)) = [R] := by
  rw [List.filter_append, List.filter_filter]
  have hfalse : ∀ r : SearchCacheRec,
      (decide (r.query = q) && !decide (r.query = q)) = false := by
    intro r
    cases hq : decide (r.query = q) <;> simp [hq]
  simp only [hfalse]
  simp [hR]

/-- **C9**: `consolidateCache` is idempotent: for every starting store,
query and fresh ids, running the consolidation twice leaves exactly the
store produced by running it once (the second run hits the single-record
no-op branch). -/
theorem consolidateCache_idempotent (store : List SearchCacheRec)
    (q : String) (id1 id2 : Nat) :
    consolidateCache (consolidateCache store q id1) q id2
      = consolidateCache store q id1 := by
  by_cases h : consolidateNoop (store.filter (fun r => decide (r.query = q)))
      = true
  · rw [show consolidateCache store q id1 = store from by
      simp [consolidateCache, h]]
    simp [consolidateCache, h]
  · have hb : consolidateNoop
        (store.filter (fun r => decide (r.query = q))) = false :=
      Bool.not_eq_true _ ▸ Bool.of_not_eq_true h
    rw [consolidateCache_of_not_noop store q id1 hb]
    have hres := filter_query_after_consolidate store q
      ({ rowId := id1, query := q,
         songs := some ((store.filter
           (fun r => decide (r.query = q))).map
             (fun r => r.song.getD none)),
         song := none } : SearchCacheRec) rfl
    simp only [consolidateCache, hres]
    simp [consolidateNoop]

theorem buildCache_spec (q : List Char) (visited : List (List Char)) :
    (buildCache visited q).2.Nodup ∧
    (∀ x ∈ (buildCache visited q).2, x ∉ visited) ∧
    (∀ x, x ∈ (buildCache visited q).1 ↔
       x ∈ (buildCache visited q).2 ∨ x ∈ visited) ∧
    (∀ x, x ∈ (buildCache visited q).2 ↔
       x ∉ visited ∧ ∃ n, 0 < n ∧ n ≤ q.length ∧ x = q.take n) := by
  suffices main : ∀ (n : Nat) (visited : List (List Char)) (q : List Char),
      q.length = n →
      (buildCache visited q).2.Nodup ∧
      (∀ x ∈ (buildCache visited q).2, x ∉ visited) ∧
      (∀ x, x ∈ (buildCache visited q).1 ↔
         x ∈ (buildCache visited q).2 ∨ x ∈ visited) ∧
      (∀ x, x ∈ (buildCache visited q).2 ↔
         x ∉ visited ∧ ∃ n, 0 < n ∧ n ≤ q.length ∧ x = q.take n) by
    exact main q.length visited q rfl
  intro n
  induction n with
  | zero =>
      intro visited q hi
      have hq : q = [] := List.length_eq_zero.mp hi
      subst hq
      rw [buildCache]
      simp only [dif_pos rfl]
      refine ⟨List.nodup_nil, ?_, ?_, ?_⟩
      · intro x hx; cases hx
      · intro x; simp
      · intro x; simp; omega
  | succ n ih =>
      intro visited q hi
      have hq : q ≠ [] := by
        intro h0; rw [h0] at hi; cases hi
      have hlen : q.dropLast.length = n := by
        rw [List.length_dropLast, hi]
        omega
      have htake : ∀ x, (∃ m, 0 < m ∧ m ≤ q.length ∧ x = q.take m) ↔
          (x = q ∨ ∃ m, 0 < m ∧ m ≤ q.dropLast.length ∧
            x = q.dropLast.take m) := by
        intro x
        constructor
        · rintro ⟨m, hm0, hmle, hx⟩
          by_cases hmq : m = q.length
          · left; rw [hx, hmq, List.take_length]
          · right
            refine ⟨m, hm0, by omega, ?_⟩
            rw [hx, List.dropLast_eq_take, List.take_take]
            congr 1
            omega
        · rintro (hx | ⟨m, hm0, hmle, hx⟩)
          · exact ⟨q.length, by omega, le_rfl, hx.trans
              (List.take_length q).symm⟩
          · refine ⟨m, hm0, by omega, ?_⟩
            rw [hx, List.dropLast_eq_take, List.take_take]
            congr 1
            rw [List.length_dropLast] at hmle
            omega
      rw [buildCache]
      simp only [dif_neg hq]
      by_cases hv : q ∈ visited
      · simp only [if_pos hv]
        obtain ⟨ihn, ihv, ihm, ihc⟩ := ih visited q.dropLast hlen
        refine ⟨ihn, ihv, ihm, ?_⟩
        intro x
        rw [ihc x, htake x]
        constructor
        · rintro ⟨hxv, hm⟩; exact ⟨hxv, Or.inr hm⟩
        · rintro ⟨hxv, hx | hm⟩
          · exact absurd (hx ▸ hv) hxv
          · exact ⟨hxv, hm⟩
      · simp only [if_neg hv]
        obtain ⟨ihn, ihv, ihm, ihc⟩ := ih (q :: visited) q.dropLast hlen
        refine ⟨?_, ?_, ?_, ?_⟩
        · refine List.nodup_cons.mpr ⟨?_, ihn⟩
          intro hmem
          exact (ihv q hmem) (List.mem_cons_self q visited)
        · intro x hx
          rcases List.mem_cons.mp hx with h1 | h1
          · exact h1 ▸ hv
          · intro hxv
            exact (ihv x h1) (List.mem_cons_of_mem q hxv)
        · intro x
          rw [ihm x]
          simp only [List.mem_cons]
          constructor
          · rintro (h1 | h1 | h1)
            · exact Or.inl (Or.inr h1)
            · exact Or.inl (Or.inl h1)
            · exact Or.inr h1
          · rintro ((h1 | h1) | h1)
            · exact Or.inr (Or.inl h1)
            · exact Or.inl h1
            · exact Or.inr (Or.inr h1)
        · intro x
          simp only [List.mem_cons]
          rw [ihc x, htake x]
          constructor
          · rintro (h1 | ⟨hxv, hm⟩)
            · exact ⟨h1 ▸ hv, Or.inl h1⟩
            · refine ⟨?_, Or.inr hm⟩
              intro hmem
              exact hxv (List.mem_cons_of_mem q hmem)
          · rintro ⟨hxv, hx | hm⟩
            · exact Or.inl hx
            · by_cases hxq : x = q
              · exact Or.inl hxq
              · refine Or.inr ⟨?_, hm⟩
                intro hmem
                rcases List.mem_cons.mp hmem with h2 | h2
                · exact hxq h2
                · exact hxv h2

theorem countP_self_eq_one_of_nodup {A : Type} [DecidableEq A]
    (l : List A) (hl : l.Nodup) (a : A) (ha : a ∈ l) :
    l.countP (fun x => decide (x = a)) = 1 := by
  induction l with
  | nil => cases ha
  | cons b t ih =>
      rw [List.nodup_cons] at hl
      rcases List.mem_cons.mp ha with h1 | h1
      · rw [List.countP_cons_of_pos _ _ (by simp [h1])]
        have ht : t.countP (fun x => decide (x = a)) = 0 := by
          rw [List.countP_eq_zero]
          intro x hx
          simp only [decide_eq_true_eq]
          intro hxa
          exact hl.1 (h1 ▸ hxa ▸ hx)
        rw [ht]
      · have hba : ¬ (b = a) := by
          intro h0
          exact hl.1 (h0 ▸ h1)
        rw [List.countP_cons_of_neg _ _ (by simp [hba])]
        exact ih hl.2 h1

theorem buildFold_spec (seeds : List (List Char)) :
    ∀ acc : List (List Char) × List (List Char),
      acc.2.Nodup → (∀ x, x ∈ acc.1 ↔ x ∈ acc.2) →
      (seeds.foldl buildFoldStep acc).2.Nodup ∧
      (∀ x, x ∈ (seeds.foldl buildFoldStep acc).1 ↔
         x ∈ (seeds.foldl buildFoldStep acc).2) ∧
      (∀ x, x ∈ (seeds.foldl buildFoldStep acc).2 ↔
         x ∈ acc.2 ∨ ∃ s ∈ seeds, ∃ n, 0 < n ∧ n ≤ s.length ∧
           x = s.take n) := by
  induction seeds with
  | nil =>
      intro acc hnd hmem
      refine ⟨hnd, hmem, ?_⟩
      intro x
      simp
  | cons s rest ih =>
      intro acc hnd hmem
      obtain ⟨bcn, bcd, bcm, bcc⟩ := buildCache_spec s acc.1
      have hnd' : (acc.2 ++ (buildCache acc.1 s).2).Nodup := by
        rw [List.nodup_append]
        refine ⟨hnd, bcn, ?_⟩
        intro a ha hb
        exact (bcd a hb) ((hmem a).mpr ha)
      have hmem' : ∀ x, x ∈ (buildCache acc.1 s).1 ↔
          x ∈ acc.2 ++ (buildCache acc.1 s).2 := by
        intro x
        rw [bcm x, List.mem_append]
        constructor
        · rintro (h1 | h1)
          · exact Or.inr h1
          · exact Or.inl ((hmem x).mp h1)
        · rintro (h1 | h1)
          · exact Or.inr ((hmem x).mpr h1)
          · exact Or.inl h1
      obtain ⟨rn, rm, rc⟩ := ih (buildFoldStep acc s) hnd' hmem'
      refine ⟨rn, rm, ?_⟩
      intro x
      rw [List.foldl_cons, rc x]
      have hstep : x ∈ (buildFoldStep acc s).2 ↔
          x ∈ acc.2 ∨ (x ∉ acc.1 ∧ ∃ n, 0 < n ∧ n ≤ s.length ∧
            x = s.take n) := by
        simp only [buildFoldStep, List.mem_append]
        rw [bcc x]
      rw [hstep]
      simp only [List.mem_cons]
      constructor
      · rintro ((h1 | ⟨-, h1⟩) | h1)
        · exact Or.inl h1
        · exact Or.inr ⟨s, Or.inl rfl, h1⟩
        · obtain ⟨s', hs', hn⟩ := h1
          exact Or.inr ⟨s', Or.inr hs', hn⟩
      · rintro (h1 | ⟨s', hs' | hs', hn⟩)
        · exact Or.inl (Or.inl h1)
        · by_cases hx : x ∈ acc.1
          · exact Or.inl (Or.inl ((hmem x).mp hx))
          · exact Or.inl (Or.inr ⟨hx, hs' ▸ hn⟩)
        · exact Or.inr ⟨s', hs', hn⟩

/-- **C6**: within one run of the prefix-expansion warmer, every non-empty
character-truncated initial segment of a seed (the seed itself included) is
searched and persisted exactly once, and a query already visited in the run
— even via a different seed — is never searched again: the searched list is
duplicate-free and contains exactly the non-empty truncations `s.take n`
(`1 ≤ n ≤ |s|`) of the seeds.  Termination is by the strictly decreasing
query length (`buildCache` recurses on `q.dropLast`). -/
theorem buildSearchCache_visits_each_truncation_once
    (seeds : List (List Char)) :
    (buildSearchCacheRun seeds).Nodup ∧
    (∀ q, q ∈ buildSearchCacheRun seeds ↔
       ∃ s ∈ seeds, ∃ n, 0 < n ∧ n ≤ s.length ∧ q = s.take n) ∧
    (∀ q ∈ buildSearchCacheRun seeds, q ≠ []) ∧
    (∀ q ∈ buildSearchCacheRun seeds,
       (buildSearchCacheRun seeds).countP (fun x => decide (x = q)) = 1)
    := by
  obtain ⟨rn, -, rc⟩ := buildFold_spec seeds ([], [])
    List.nodup_nil (by intro x; simp)
  have hmemiff : ∀ q, q ∈ buildSearchCacheRun seeds ↔
      ∃ s ∈ seeds, ∃ n, 0 < n ∧ n ≤ s.length ∧ q = s.take n := by
    intro q
    rw [buildSearchCacheRun, rc q]
    simp
  refine ⟨rn, hmemiff, ?_, ?_⟩
  · intro q hq
    obtain ⟨s, -, n, hn0, hnle, hq⟩ := (hmemiff q).mp hq
    intro h0
    rw [h0] at hq
    have : (List.take n s).length = n := by
      rw [List.length_take]
      omega
    rw [← hq] at this
    simp at this
    omega
  · intro q hq
    rw [buildSearchCacheRun] at hq ⊢
    exact countP_self_eq_one_of_nodup _ rn q hq

/-- `get` does not change the key-to-value association. -/
theorem LRUCache.lookup_get_snd (c : LRUCache K V) (hwf : c.WF)
    (k k' : K) : ((c.get k).2).lookup k' = c.lookup k' := by
  obtain ⟨hnm, hnl, hmk, hkm, hcap⟩ := hwf
  unfold LRUCache.get
  by_cases hk : k ∈ c.mapKeys
  · rw [if_pos hk]
    cases hf : c.list.find? (fun e => decide (e.key = k)) with
    | none => rfl
    | some e =>
        have hek : e.key = k := by
          have := List.find?_some hf
          simpa using this
        unfold LRUCache.lookup
        by_cases hk' : k' ∈ c.mapKeys
        · rw [if_pos hk', if_pos hk']
          by_cases hkk : k' = k
          · subst hkk
            rw [List.find?_cons,
              show (decide (e.key = k')) = true by simp [hek], hf]
          · rw [List.find?_cons]
            have : (decide (e.key = k')) = false := by
              simp [hek]
              exact fun h0 => hkk h0.symm
            rw [this]
            rw [find?_eraseP_of_ne]
            intro x hx
            simp only [decide_eq_true_eq] at hx
            simp [hx]
            exact fun h0 => hkk (h0 ▸ rfl)
        · rw [if_neg hk', if_neg hk']
  · rw [if_neg hk]

/-- `get` preserves well-formedness. -/
theorem LRUCache.WF_get (c : LRUCache K V) (hwf : c.WF) (k : K) :
    ((c.get k).2).WF := by
  obtain ⟨hnm, hnl, hmk, hkm, hcap⟩ := hwf
  unfold LRUCache.get
  by_cases hk : k ∈ c.mapKeys
  · rw [if_pos hk]
    cases hf : c.list.find? (fun e => decide (e.key = k)) with
    | none => exact ⟨hnm, hnl, hmk, hkm, hcap⟩
    | some e =>
        have hek : e.key = k := by
          have := List.find?_some hf
          simpa using this
        have hkeys : (e :: c.list.eraseP
            (fun x => decide (x.key = k))).map Entry.key
              = k :: (c.list.map Entry.key).erase k := by
          simp [map_key_eraseP, hek]
        refine ⟨hnm, ?_, ?_, ?_, hcap⟩
        · rw [hkeys]
          refine List.nodup_cons.mpr ⟨?_, hnl.erase k⟩
          intro hmem
          exact ((hnl.mem_erase_iff).mp hmem).1 rfl
        · intro x hx
          rw [hkeys]
          by_cases hxk : x = k
          · rw [hxk]; exact List.mem_cons_self _ _
          · refine List.mem_cons_of_mem _ ?_
            rw [hnl.mem_erase_iff]
            exact ⟨hxk, hmk x hx⟩
        · intro x hx
          rw [hkeys] at hx
          rcases List.mem_cons.mp hx with h1 | h1
          · exact h1 ▸ hk
          · exact hkm x (List.mem_of_mem_erase h1)
  · rw [if_neg hk]
    exact ⟨hnm, hnl, hmk, hkm, hcap⟩

/-- After `set k v` the cache associates `v` to `k` (positive capacity: with
capacity 0 the freshly inserted entry itself is evicted). -/
theorem LRUCache.lookup_set_self (c : LRUCache K V) (hwf : c.WF)
    (hpos : 0 < c.maxSize) (k : K) (v : V) :
    ((c.set k v).1).lookup k = some v := by
  obtain ⟨hnm, hnl, hmk, hkm, hcap⟩ := hwf
  by_cases hov : (if k ∈ c.mapKeys then c.mapKeys
      else k :: c.mapKeys).length ≤ c.maxSize
  · rw [LRUCache.set_no_overflow _ _ _ hov]
    unfold LRUCache.lookup
    have hk2 : k ∈ (if k ∈ c.mapKeys then c.mapKeys
        else k :: c.mapKeys) := by
      by_cases hk : k ∈ c.mapKeys
      · simpa [hk] using hk
      · simp [hk]
    rw [if_pos hk2, List.find?_cons]
    simp
  · have hov' := not_le.mp hov
    have hk : k ∉ c.mapKeys := by
      intro hk
      rw [if_pos hk] at hov'
      exact absurd hcap (not_le.mpr hov')
    have hlen : c.maxSize < c.mapKeys.length + 1 := by
      rw [if_neg hk] at hov'
      simpa using hov'
    rw [LRUCache.set_overflow_fresh _ _ _ hk hlen]
    have hnil : c.mapKeys ≠ [] := by
      intro h0
      rw [h0] at hlen
      simp at hlen
      omega
    have hlne : c.list ≠ [] := by
      intro h0
      refine hnil (List.eq_nil_iff_forall_not_mem.mpr fun x hx => ?_)
      have := hmk x hx
      rw [h0] at this
      cases this
    have hE : (Entry.mk k v :: c.list).getLast
        (List.cons_ne_nil _ _) = c.list.getLast hlne := by
      have h1 := List.getLast?_eq_getLast
        (Entry.mk k v :: c.list) (List.cons_ne_nil _ _)
      rw [getLast?_cons_of_ne_nil _ _ hlne,
        List.getLast?_eq_getLast _ hlne] at h1
      exact Option.some_injective _ h1.symm
    have hgkmem : (c.list.getLast hlne).key ∈ c.list.map Entry.key :=
      List.mem_map.mpr ⟨c.list.getLast hlne, List.getLast_mem hlne, rfl⟩
    have hgknek : (c.list.getLast hlne).key ≠ k := by
      intro h0
      exact hk (hkm _ (h0 ▸ hgkmem))
    unfold LRUCache.lookup
    rw [hE]
    have hmem : k ∈ (k :: c.mapKeys).erase (c.list.getLast hlne).key := by
      rw [List.erase_cons_tail (by simpa using fun h0 => hgknek h0.symm)]
      exact List.mem_cons_self _ _
    rw [if_pos hmem, List.dropLast_cons_of_ne_nil hlne, List.find?_cons]
    simp

/-- **C4**: `saveSong` is idempotent under sequential, non-racing calls.
From a well-formed state (cache coherent with the table, at most one row for
the key), two calls with candidates sharing a `spotifyId` return the same
canonical persisted reference both times, the second call changes no rows,
and exactly one persisted row with that `spotifyId` remains. -/
theorem saveSong_idempotent_seq (st : SongState) (c1 c2 : SongCandidate)
    (hsame : c2.spotifyId = c1.spotifyId)
    (hwf : st.songCache.WF) (hpos : 0 < st.songCache.maxSize)
    (hco : ∀ s : Song, st.songCache.lookup c1.spotifyId = some (some s) →
       s ∈ st.songs ∧ s.spotifyId = c1.spotifyId)
    (hcount : st.songs.countP
        (fun s => decide (s.spotifyId = c1.spotifyId)) ≤ 1) :
    (saveSong (saveSong st c1).2 c2).1 = (saveSong st c1).1 ∧
    (saveSong (saveSong st c1).2 c2).2.songs = (saveSong st c1).2.songs ∧
    (saveSong st c1).2.songs.countP
        (fun s => decide (s.spotifyId = c1.spotifyId)) = 1 ∧
    (saveSong st c1).1.spotifyId = c1.spotifyId := by
  cases hgd : (st.songCache.lookup c1.spotifyId).getD none with
  | some s =>
      -- first call hits the cache
      have hlk : st.songCache.lookup c1.spotifyId = some (some s) := by
        cases hl2 : st.songCache.lookup c1.spotifyId with
        | none => rw [hl2] at hgd; simp at hgd
        | some x => rw [hl2] at hgd; simp at hgd; rw [hgd]
      obtain ⟨hsmem, hsid⟩ := hco s hlk
      have e1 : saveSong st c1
          = (s, { st with songCache := (st.songCache.get c1.spotifyId).2 })
          := by
        simp only [saveSong, LRUCache.get_fst, hlk]
        rfl
      have hlk2 : ((st.songCache.get c1.spotifyId).2).lookup c2.spotifyId
          = some (some s) := by
        rw [hsame, LRUCache.lookup_get_snd st.songCache hwf, hlk]
      have e2 : saveSong
          { st with songCache := (st.songCache.get c1.spotifyId).2 } c2
          = (s, { st with songCache :=
              (((st.songCache.get c1.spotifyId).2).get c2.spotifyId).2 })
          := by
        simp only [saveSong, LRUCache.get_fst, hlk2]
        rfl
      rw [e1]
      refine ⟨?_, ?_, ?_, hsid⟩
      · rw [e2]
      · rw [e2]
      · have hp : 0 < st.songs.countP
            (fun s => decide (s.spotifyId = c1.spotifyId)) :=
          List.countP_pos.mpr ⟨s, hsmem, by simp [hsid]⟩
        show st.songs.countP (fun s => decide (s.spotifyId = c1.spotifyId))
          = 1
        omega
  | none =>
      -- falsy cache value: fall back to the persistent table
      cases hf : st.songs.find?
          (fun s => decide (s.spotifyId = c1.spotifyId)) with
      | some s =>
          have hsid : s.spotifyId = c1.spotifyId := by
            have := List.find?_some hf
            simpa using this
          have e1 : saveSong st c1
              = (s, { st with songCache :=
                  (((st.songCache.get c1.spotifyId).2).set c1.spotifyId
                    (some s)).1 }) := by
            simp only [saveSong, LRUCache.get_fst, hgd, hf]
          have hlk2 : ((((st.songCache.get c1.spotifyId).2).set
              c1.spotifyId (some s)).1).lookup c2.spotifyId
              = some (some s) := by
            rw [hsame]
            exact LRUCache.lookup_set_self _
              (LRUCache.WF_get st.songCache hwf _)
              (by rw [LRUCache.maxSize_get]; exact hpos) _ _
          have e2 : saveSong { st with songCache :=
              (((st.songCache.get c1.spotifyId).2).set c1.spotifyId
                (some s)).1 } c2
              = (s, { st with songCache :=
                  (((((st.songCache.get c1.spotifyId).2).set c1.spotifyId
                    (some s)).1).get c2.spotifyId).2 }) := by
            simp only [saveSong, LRUCache.get_fst, hlk2]
            rfl
          rw [e1]
          refine ⟨?_, ?_, ?_, hsid⟩
          · rw [e2]
          · rw [e2]
          · have hp : 0 < st.songs.countP
                (fun s => decide (s.spotifyId = c1.spotifyId)) :=
              List.countP_pos.mpr
                ⟨s, List.mem_of_find?_eq_some hf, by simp [hsid]⟩
            show st.songs.countP
                (fun s => decide (s.spotifyId = c1.spotifyId)) = 1
            omega
      | none =>
          have e1 : saveSong st c1
              = (c1.persist st.nextRowId,
                 { songCache := (((st.songCache.get c1.spotifyId).2).set
                     c1.spotifyId (some (c1.persist st.nextRowId))).1,
                   songs := st.songs ++ [c1.persist st.nextRowId],
                   nextRowId := st.nextRowId + 1 }) := by
            simp only [saveSong, LRUCache.get_fst, hgd, hf]
          have hlk2 : ((((st.songCache.get c1.spotifyId).2).set
              c1.spotifyId (some (c1.persist st.nextRowId))).1).lookup
                c2.spotifyId = some (some (c1.persist st.nextRowId)) := by
            rw [hsame]
            exact LRUCache.lookup_set_self _
              (LRUCache.WF_get st.songCache hwf _)
              (by rw [LRUCache.maxSize_get]; exact hpos) _ _
          have e2 : saveSong
              { songCache := (((st.songCache.get c1.spotifyId).2).set
                  c1.spotifyId (some (c1.persist st.nextRowId))).1,
                songs := st.songs ++ [c1.persist st.nextRowId],
                nextRowId := st.nextRowId + 1 } c2
              = (c1.persist st.nextRowId,
                 { songCache := ((((st.songCache.get c1.spotifyId).2).set
                     c1.spotifyId
                     (some (c1.persist st.nextRowId))).1.get
                       c2.spotifyId).2,
                   songs := st.songs ++ [c1.persist st.nextRowId],
                   nextRowId := st.nextRowId + 1 }) := by
            simp only [saveSong, LRUCache.get_fst, hlk2]
            rfl
          rw [e1]
          refine ⟨?_, ?_, ?_, rfl⟩
          · rw [e2]
          · rw [e2]
          · rw [List.countP_append]
            have h0 : st.songs.countP
                (fun s => decide (s.spotifyId = c1.spotifyId)) = 0 := by
              rw [List.countP_eq_zero]
              intro a ha
              have := List.find?_eq_none.mp hf a ha
              simpa using this
            rw [h0]
            simp [SongCandidate.persist]

/-- Witness for C4: an empty state, two candidates sharing spotifyId "sp1"
with different payloads. -/
theorem saveSong_idempotent_seq_witness :
    (saveSong (saveSong
        { songCache := { maxSize := 2, mapKeys := [], list := [] },
          songs := [], nextRowId := 0 } ⟨"sp1", 1⟩).2 ⟨"sp1", 2⟩).1
      = (saveSong
        { songCache := { maxSize := 2, mapKeys := [], list := [] },
          songs := [], nextRowId := 0 } ⟨"sp1", 1⟩).1 ∧
    (saveSong (saveSong
        { songCache := { maxSize := 2, mapKeys := [], list := [] },
          songs := [], nextRowId := 0 } ⟨"sp1", 1⟩).2 ⟨"sp1", 2⟩).2.songs
      = (saveSong
        { songCache := { maxSize := 2, mapKeys := [], list := [] },
          songs := [], nextRowId := 0 } ⟨"sp1", 1⟩).2.songs ∧
    (saveSong
        { songCache := { maxSize := 2, mapKeys := [], list := [] },
          songs := [], nextRowId := 0 } ⟨"sp1", 1⟩).2.songs.countP
        (fun s => decide (s.spotifyId = "sp1")) = 1 ∧
    (saveSong
        { songCache := { maxSize := 2, mapKeys := [], list := [] },
          songs := [], nextRowId := 0 } ⟨"sp1", 1⟩).1.spotifyId = "sp1" :=
  saveSong_idempotent_seq
    { songCache := { maxSize := 2, mapKeys := [], list := [] },
      songs := [], nextRowId := 0 } ⟨"sp1", 1⟩ ⟨"sp1", 2⟩ rfl
    (by unfold LRUCache.WF; refine ⟨?_, ?_, ?_, ?_, ?_⟩ <;> simp)
    (by decide)
    (by intro s h; simp [LRUCache.lookup] at h)
    (by decide)

theorem find?_map_replace (parties : List Party) (p : Party)
    (h : parties.any (fun q => decide (q.id = p.id)) = true) :
    (parties.map (fun q => if q.id = p.id then p else q)).find?
      (fun q => decide (q.id = p.id)) = some p := by
  induction parties with
  | nil => cases h
  | cons a t ih =>
      by_cases ha : a.id = p.id
      · simp [List.find?_cons, ha]
      · rw [List.map_cons, List.find?_cons, if_neg ha,
          show (decide (a.id = p.id)) = false by simp [ha]]
        refine ih ?_
        rcases List.any_eq_true.mp h with ⟨x, hx, hpx⟩
        rcases List.mem_cons.mp hx with h1 | h1
        · subst h1; simp at hpx; exact absurd hpx ha
        · exact List.any_eq_true.mpr ⟨x, h1, hpx⟩

theorem find?_append_singleton (parties : List Party) (p : Party)
    (hall : ∀ q ∈ parties, (decide (q.id = p.id)) = false) :
    (parties ++ [p]).find? (fun q => decide (q.id = p.id)) = some p := by
  induction parties with
  | nil => simp [List.find?_cons]
  | cons a t ih =>
      rw [List.cons_append, List.find?_cons,
        hall a (List.mem_cons_self _ _)]
      exact ih (fun q hq => hall q (List.mem_cons_of_mem _ hq))

theorem find?_saveParty (parties : List Party) (p : Party) :
    (saveParty parties p).find? (fun q => decide (q.id = p.id)) = some p
    := by
  unfold saveParty
  by_cases h : parties.any (fun q => decide (q.id = p.id)) = true
  · rw [if_pos h]
    exact find?_map_replace parties p h
  · rw [if_neg h]
    refine find?_append_singleton parties p ?_
    intro q hq
    cases hd : decide (q.id = p.id)
    · rfl
    · exact absurd (List.any_eq_true.mpr ⟨q, hq, hd⟩) h

theorem jsSort_perm (l : List PlaylistEntry) :
    (jsSortByScoreDesc l).Perm l :=
  List.mergeSort_perm l _

theorem jsSort_sorted (l : List PlaylistEntry) :
    (jsSortByScoreDesc l).Pairwise (fun a b => b.score ≤ a.score) := by
  have h := @List.sorted_mergeSort PlaylistEntry
    (fun a b : PlaylistEntry => decide (b.score ≤ a.score))
    (by intro a b c h1 h2
        simp only [decide_eq_true_eq] at h1 h2 ⊢
        exact le_trans h2 h1)
    (by intro a b
        rcases le_total b.score a.score with h | h <;> simp [h])
    l
  exact h.imp (by intro a b hab; simpa using hab)

/-- **C5**: for every party whose mapping is present in the playlist cache,
`indicatePlaylistUpdated` returns that mapping, serializes its entries
sorted in descending score order (a permutation of the mapping's values,
pairwise descending), writes the serialized string to the party's
`cachedPlaylist` together with the updated `playlistLastUpdatedAt`
timestamp, and persists the party. -/
theorem indicatePlaylistUpdated_publishes_sorted (st : PlaylistState)
    (party : Party) (now : Nat) (m : List (String × PlaylistEntry))
    (hm : st.playlistCache.lookup party.id = some (some m)) :
    (indicatePlaylistUpdated st party now).1 = m ∧
    ((indicatePlaylistUpdated st party now).2.parties.find?
        (fun q => decide (q.id = party.id)))
      = some { id := party.id,
               cachedPlaylist := some (getPlaylistAsString m),
               playlistLastUpdatedAt := some now } ∧
    (jsSortByScoreDesc (m.map Prod.snd)).Perm (m.map Prod.snd) ∧
    (jsSortByScoreDesc (m.map Prod.snd)).Pairwise
      (fun a b => b.score ≤ a.score) ∧
    getPlaylistAsString m
      = "[" ++ String.intercalate ","
          ((jsSortByScoreDesc (m.map Prod.snd)).map entryJson) ++ "]" := by
  have e0 : getCachedPlaylist st party
      = (m, { st with playlistCache := (st.playlistCache.get party.id).2 })
      := by
    simp only [getCachedPlaylist, LRUCache.get_fst, hm]
    rfl
  simp only [indicatePlaylistUpdated, e0]
  refine ⟨trivial, ?_, jsSort_perm _, jsSort_sorted _, rfl⟩
  exact find?_saveParty st.parties
    { id := party.id, cachedPlaylist := some (getPlaylistAsString m),
      playlistLastUpdatedAt := some now }

/-- Witness for C5 at a concrete cached mapping of two entries. -/
theorem indicatePlaylistUpdated_publishes_sorted_witness :
    (indicatePlaylistUpdated wPlaylistState wParty 7).1 = wMap ∧
    ((indicatePlaylistUpdated wPlaylistState wParty 7).2.parties.find?
        (fun q => decide (q.id = wParty.id)))
      = some { id := wParty.id,
               cachedPlaylist := some (getPlaylistAsString wMap),
               playlistLastUpdatedAt := some 7 } ∧
    (jsSortByScoreDesc (wMap.map Prod.snd)).Perm (wMap.map Prod.snd) ∧
    (jsSortByScoreDesc (wMap.map Prod.snd)).Pairwise
      (fun a b => b.score ≤ a.score) ∧
    getPlaylistAsString wMap
      = "[" ++ String.intercalate ","
          ((jsSortByScoreDesc (wMap.map Prod.snd)).map entryJson) ++ "]" :=
  indicatePlaylistUpdated_publishes_sorted wPlaylistState wParty 7 wMap
    (by decide)

/-- **C10**: `get` returns `null` (`none`) for every key absent from the
lookup table, and a stored `null` is indistinguishable from absence at the
cache's public interface (`get` yields the JS value `null` in both cases);
consequently callers branch on truthiness: whenever the cached value for
the candidate's `spotifyId` is falsy, `saveSong` falls back to the
persistent store (returning the first persisted row, or persisting the
candidate), and `getCachedPlaylist` rebuilds the mapping from the persisted
`PlaylistEntry` rows. -/
theorem lru_falsy_is_miss
    (c : LRUCache String (Option Song)) (k : String)
    (hwf : c.WF) (hpos : 0 < c.maxSize) (hk : k ∉ c.mapKeys)
    (st : SongState) (cand : SongCandidate)
    (hmiss : (st.songCache.get cand.spotifyId).1.getD none = none)
    (pst : PlaylistState) (party : Party)
    (hpm : (pst.playlistCache.get party.id).1.getD none = none) :
    (c.get k).1 = none ∧
    (((c.set k none).1).get k).1.getD none = none ∧
    ((∀ s, st.songs.find?
        (fun x => decide (x.spotifyId = cand.spotifyId)) = some s →
        (saveSong st cand).1 = s ∧ (saveSong st cand).2.songs = st.songs) ∧
     (st.songs.find?
        (fun x => decide (x.spotifyId = cand.spotifyId)) = none →
        (saveSong st cand).1 = cand.persist st.nextRowId ∧
        (saveSong st cand).2.songs
          = st.songs ++ [cand.persist st.nextRowId])) ∧
    (getCachedPlaylist pst party).1
      = (getPlaylistForParty pst party.id).foldl
          (fun m e => jsMapSet m e.songSpotifyId e) [] := by
  refine ⟨?_, ?_, ⟨?_, ?_⟩, ?_⟩
  · simp [LRUCache.get, hk]
  · rw [LRUCache.get_fst, LRUCache.lookup_set_self c hwf hpos k none]
    rfl
  · intro s hf
    simp only [saveSong, hmiss, hf]
    exact ⟨trivial, trivial⟩
  · intro hf
    simp only [saveSong, hmiss, hf]
    exact ⟨trivial, trivial⟩
  · simp only [getCachedPlaylist, hpm]
    rfl

/-- Witness for C10: an empty cache of capacity 1, a stored-null song-cache
entry backed by a table row, and an empty playlist cache. -/
theorem lru_falsy_is_miss_witness :
    ((LRUCache.empty String (Option Song) 1).get "k").1 = none ∧
    ((((LRUCache.empty String (Option Song) 1).set "k" none).1).get
        "k").1.getD none = none ∧
    ((∀ s, wSongState.songs.find?
        (fun x => decide (x.spotifyId
          = (SongCandidate.mk "x" 9).spotifyId)) = some s →
        (saveSong wSongState ⟨"x", 9⟩).1 = s ∧
        (saveSong wSongState ⟨"x", 9⟩).2.songs = wSongState.songs) ∧
     (wSongState.songs.find?
        (fun x => decide (x.spotifyId
          = (SongCandidate.mk "x" 9).spotifyId)) = none →
        (saveSong wSongState ⟨"x", 9⟩).1
          = (SongCandidate.mk "x" 9).persist wSongState.nextRowId ∧
        (saveSong wSongState ⟨"x", 9⟩).2.songs
          = wSongState.songs
            ++ [(SongCandidate.mk "x" 9).persist wSongState.nextRowId])) ∧
    (getCachedPlaylist wPlaylistStateMiss wParty).1
      = (getPlaylistForParty wPlaylistStateMiss wParty.id).foldl
          (fun m e => jsMapSet m e.songSpotifyId e) [] :=
  lru_falsy_is_miss (LRUCache.empty String (Option Song) 1) "k"
    (by unfold LRUCache.WF; refine ⟨?_, ?_, ?_, ?_, ?_⟩ <;> simp [LRUCache.empty])
    (by decide) (by simp [LRUCache.empty])
    wSongState ⟨"x", 9⟩ (by decide)
    wPlaylistStateMiss wParty (by decide)

